import Mathlib

/-!
Verification development for the `cba` crate: a shallow embedding of the
modules `bath.rs` (path manipulation), `bog.rs` (global leveled logging),
`bo.rs` (chunked stream reading) and `broc.rs` (process spawning / shell
quoting), together with theorems settling the specification claims.

Conventions of the embedding:
* Rust `u8` values are `Nat` (all values produced here stay below 256;
  `u8::MAX` is the literal 255).
* The global logger lives behind a mutex holding `Option<GLOBAL_BOGGER_STRUCT>`;
  we model the lock/option as `GlobalBogger` (poisoned lock, uninitialized,
  or initialized state). The output sink is modelled by returning the written
  line as an `Option String` instead of performing IO.
* Closures that run under the logger (`Bogger::with`) are modelled as
  functions `GlobalBogger → GlobalBogger × T`: the body may itself interact
  with the global logger and produces a value of type `T`.
-/

-- ===================== bath.rs : path manipulation =====================

/-- A parsed path component, mirroring `std::path::Component`.
`pfx` is `Component::Prefix` (Windows drive/UNC prefixes, lossy string). -/
inductive PathComponent where
  | pfx (s : String)
  | rootDir
  | curDir
  | parentDir
  | normal (s : String)
deriving DecidableEq

/-- A built path (`std::path::PathBuf`) as produced by `PathExt::normalize`:
an optional `Component::Prefix`, whether the path has a root separator, and
the ordinary components pushed so far. -/
structure RPath where
  pfx : Option String
  hasRoot : Bool
  comps : List String
deriving DecidableEq

/-- Rust `PathBuf::push` of the root separator (`component.as_os_str()` for
`Component::RootDir`): pushing an absolute path replaces everything except
the prefix of `self`. -/
def RPath.pushRoot (p : RPath) : RPath := ⟨p.pfx, true, []⟩

/-- Rust `PathBuf::pop`: truncate to the parent. When the path consists only of a
root and/or a prefix (or is empty), `parent` is `None` and `pop` does
nothing; dropping the last ordinary component covers both cases since
`List.dropLast [] = []`. -/
def RPath.pop (p : RPath) : RPath := ⟨p.pfx, p.hasRoot, p.comps.dropLast⟩

/-- Rust `PathBuf::push` of a `Component::Normal`. -/
def RPath.pushNormal (p : RPath) (s : String) : RPath := ⟨p.pfx, p.hasRoot, p.comps ++ [s]⟩

/-- Rust `Path::components` of a path built by `normalize`: the prefix (if any),
then the root (if any), then the ordinary components in order. -/
def RPath.components (p : RPath) : List PathComponent :=
  (match p.pfx with
   | some s => [PathComponent.pfx s]
   | none => []) ++
  (if p.hasRoot then [PathComponent.rootDir] else []) ++
  p.comps.map PathComponent.normal

/-- Rust `Path::file_name` on a path whose components are all `Component::Normal`
(the shape `normalize` produces): the final component, if any. -/
def RPath.file_name (p : RPath) : Option String := p.comps.getLast?

/-- The loop body of `PathExt::normalize` (`bath.rs`), folding the remaining
components into the accumulated `PathBuf`.  The `pfx` case is
`unreachable!()` in the source: a parsed path never has a prefix past its
head; we let it skip the component. -/
def normalizeAux (ret : RPath) : List PathComponent → RPath
  | [] => ret
  | .pfx _ :: rest => normalizeAux ret rest
  | .rootDir :: rest => normalizeAux ret.pushRoot rest
  | .curDir :: rest => normalizeAux ret rest
  | .parentDir :: rest => normalizeAux ret.pop rest
  | .normal s :: rest => normalizeAux (ret.pushNormal s) rest

/-- Rust `PathExt::normalize` (`bath.rs`): keep a leading `Component::Prefix`,
then fold the remaining components. Purely lexical: defined only on the
component list, no filesystem access. -/
def PathExt.normalize (cs : List PathComponent) : RPath :=
  match cs with
  | PathComponent.pfx s :: rest => normalizeAux ⟨some s, false, []⟩ rest
  | _ => normalizeAux ⟨none, false, []⟩ cs

/-- Rust `PathExt::is_hidden` (`bath.rs`):
`path.normalize().file_name().map(|s| !s.to_string_lossy().starts_with('.')).unwrap_or(false)`. -/
def PathExt.is_hidden (cs : List PathComponent) : Bool :=
  match (PathExt.normalize cs).file_name with
  | some s => !(s.startsWith ".")
  | none => false

/-- A string is a valid `Component::Normal` name as produced by the Rust
path parser on Unix: nonempty, not `.` or `..`, and containing no
separator. -/
def validName (s : String) : Prop :=
  s ≠ "" ∧ s ≠ "." ∧ s ≠ ".." ∧ '/' ∉ s.data

instance (s : String) : Decidable (validName s) := by
  unfold validName; infer_instance

/-- Components that may occur past the (prefix/root) head of a parsed path. -/
def bodyComp : PathComponent → Bool
  | .curDir => true
  | .parentDir => true
  | .normal _ => true
  | _ => false

/-- Shape of a component list produced by `Path::components`: an optional
prefix at the head, then an optional root, then only plain components. -/
def parsedShape (cs : List PathComponent) : Bool :=
  match cs with
  | PathComponent.pfx _ :: rest =>
    (match rest with
     | PathComponent.rootDir :: rest2 => rest2.all bodyComp
     | _ => rest.all bodyComp)
  | PathComponent.rootDir :: rest => rest.all bodyComp
  | _ => cs.all bodyComp

/-- Modelled from the spec, for comparison with `PathExt.normalize`:
"a prefix component and a root component are kept, each `.` component is
dropped, each `..` component removes the most recently kept component
(a no-op at an empty result or at the root), and every normal component is
appended in order". -/
def specNormalizeStep (acc : RPath) : PathComponent → RPath
  | .pfx s => { acc with pfx := some s }
  | .rootDir => { acc with hasRoot := true }
  | .curDir => acc
  | .parentDir => if acc.comps.isEmpty then acc else { acc with comps := acc.comps.dropLast }
  | .normal s => { acc with comps := acc.comps ++ [s] }

/-- Modelled from the spec: normalization as a left fold of
`specNormalizeStep` starting from the empty path. -/
def specNormalize (cs : List PathComponent) : RPath :=
  cs.foldl specNormalizeStep ⟨none, false, []⟩

/-- Rust `str::rfind(char)` on a character list: the index of the last
occurrence. (In the source the index is a byte index; since `'.'` is a
one-byte character and the cut happens at its boundary, character indices
and byte indices agree for every use `split_ext` makes of them.) -/
def rfindChar (ch : Char) : List Char → Option Nat
  | [] => none
  | c :: rest =>
    match rfindChar ch rest with
    | some i => some (i + 1)
    | none => if c = ch then some 0 else none

/-- Rust `split_ext` (`bath.rs`): split the string around the last `'.'`.
`Some(0) | None => [p, ""]`; a last-position dot yields an empty extension. -/
def split_ext (p : List Char) : List Char × List Char :=
  match rfindChar '.' p with
  | none => (p, [])
  | some idx =>
    if idx = 0 then (p, [])
    else if idx + 1 < p.length then (p.take idx, p.drop (idx + 1))
    else (p.take idx, [])

-- ===================== bog.rs : global leveled logging =====================

/-- Rust `BogLevel` (`bog.rs`). -/
inductive BogLevel where
  | NOTE
  | ERROR
  | WARN
  | INFO
  | DEBUG
  | DNOTE
  | ALL
  | CUSTOM (s : String)
deriving DecidableEq

/-- Rust `BogFmter::priority` (trait default, not overridden by `Fg` or `Bg`). -/
def BogLevel.priority : BogLevel → Nat
  | .NOTE => 120
  | .ERROR => 100
  | .WARN => 80
  | .INFO => 60
  | .DEBUG => 40
  | .DNOTE => 20
  | .ALL => 0
  | .CUSTOM _ => 120

/-- The two formatter implementations, `Fg` and `Bg` (`bog.rs`). -/
inductive BogFmterImpl where
  | Fg
  | Bg
deriving DecidableEq

/-- Rust `BogFmter::begin_tag` for the two implementations. -/
def BogFmterImpl.begin_tag : BogFmterImpl → BogLevel → String
  | .Fg, level =>
    (match level with
     | .NOTE => "\x1b[34m[NOTE"
     | .ERROR => "\x1b[31m[ERRO"
     | .WARN => "\x1b[33m[WARN"
     | .INFO => "\x1b[32m[INFO"
     | .DEBUG => "\x1b[35m[DBUG"
     | .DNOTE => "\x1b[30m[DNTE"
     | .ALL => "\x1b[m["
     | .CUSTOM s => "\x1b[34m[" ++ s)
  | .Bg, level =>
    (match level with
     | .NOTE => "\x1b[30;44mNOTE "
     | .ERROR => "\x1b[30;41mERROR"
     | .WARN => "\x1b[30;43mWARN "
     | .INFO => "\x1b[30;42mINFO "
     | .DEBUG => "\x1b[30;45mDEBUG"
     | .DNOTE => "\x1b[30;47mDNOTE"
     | .ALL => "\x1b[30;m"
     | .CUSTOM s => "\x1b[30;44m" ++ s)

/-- Rust `BogFmter::end_tag`: default overridden by both implementations. -/
def BogFmterImpl.end_tag : BogFmterImpl → String
  | .Fg => "]\x1b[0m"
  | .Bg => " \x1b[0m"

/-- Rust `BogFmter::push_tag`: `Fg` uses the trait default (": " separator),
`Bg` overrides with "| ". -/
def BogFmterImpl.push_tag (fm : BogFmterImpl) (s tag : String) : String :=
  match fm with
  | .Fg => if tag ≠ "" then s ++ ": " ++ tag else s
  | .Bg => if tag ≠ "" then s ++ "| " ++ tag else s

/-- Rust `BogFmter::format` (trait default). -/
def BogFmterImpl.format (fm : BogFmterImpl) (level : BogLevel) (tag msg : String) : String :=
  let s := fm.push_tag (fm.begin_tag level) tag
  let s := s ++ fm.end_tag
  if msg ≠ "" then s ++ " " ++ msg else s

/-- Rust `GLOBAL_BOGGER_STRUCT` (`bog.rs`).  The `writer` is modelled by
returning written lines instead of doing IO; `prefix`/`suffix` are renamed
`preStr`/`sufStr` (`prefix` is reserved here). -/
structure GLOBAL_BOGGER_STRUCT where
  formatter : BogFmterImpl
  min_level : Nat × BogLevel
  downcast_to : Nat × BogLevel
  preStr : String
  sufStr : String
  tag_override : Option String
deriving DecidableEq

/-- Rust `GLOBAL_BOGGER_STRUCT::bog`: returns the line written to the sink, or
`none` when the message is filtered below `min_level`. The struct itself is
not mutated by `bog`. -/
def GLOBAL_BOGGER_STRUCT.bog (b : GLOBAL_BOGGER_STRUCT) (level : BogLevel)
    (tag msg : String) : Option String :=
  let pri := level.priority
  if pri < b.min_level.1 then none
  else
    let level := if b.downcast_to.1 < pri then b.downcast_to.2 else level
    let effective_tag := b.tag_override.getD tag
    let formatted :=
      if b.preStr ≠ "" then b.formatter.format level effective_tag (b.preStr ++ msg)
      else b.formatter.format level effective_tag msg
    let formatted := if b.sufStr ≠ "" then formatted ++ b.sufStr else formatted
    some (formatted ++ "\n")

/-- Rust `GLOBAL_BOGGER_STRUCT::pause`: `min_level.0 = u8::MAX`. -/
def GLOBAL_BOGGER_STRUCT.pause (b : GLOBAL_BOGGER_STRUCT) : GLOBAL_BOGGER_STRUCT :=
  { b with min_level := (255, b.min_level.2) }

/-- Rust `GLOBAL_BOGGER_STRUCT::resume`: `min_level.0 = priority(min_level.1)`. -/
def GLOBAL_BOGGER_STRUCT.resume (b : GLOBAL_BOGGER_STRUCT) : GLOBAL_BOGGER_STRUCT :=
  { b with min_level := (b.min_level.2.priority, b.min_level.2) }

/-- Rust `GLOBAL_BOGGER_STRUCT::filter_below`. -/
def GLOBAL_BOGGER_STRUCT.filter_below (b : GLOBAL_BOGGER_STRUCT) (lvl : BogLevel) :
    GLOBAL_BOGGER_STRUCT :=
  { b with min_level := (lvl.priority, lvl) }

/-- Rust `GLOBAL_BOGGER_STRUCT::downcast_above`. -/
def GLOBAL_BOGGER_STRUCT.downcast_above (b : GLOBAL_BOGGER_STRUCT) (lvl : BogLevel) :
    GLOBAL_BOGGER_STRUCT :=
  { b with downcast_to := (lvl.priority, lvl) }

/-- Rust `GLOBAL_BOGGER_STRUCT::bounds`. -/
def GLOBAL_BOGGER_STRUCT.bounds (b : GLOBAL_BOGGER_STRUCT) :
    (Nat × BogLevel) × (Nat × BogLevel) :=
  (b.min_level, b.downcast_to)

/-- Rust `GLOBAL_BOGGER_STRUCT::set_bounds`. -/
def GLOBAL_BOGGER_STRUCT.set_bounds (b : GLOBAL_BOGGER_STRUCT)
    (bd : (Nat × BogLevel) × (Nat × BogLevel)) : GLOBAL_BOGGER_STRUCT :=
  { b with min_level := bd.1, downcast_to := bd.2 }

/-- Rust `GLOBAL_BOGGER_STRUCT::init_global`: the freshly initialized state
(`downcast_to: (255, ERROR)`, `min_level: (0, DEBUG)`, empty strings, no
tag override). -/
def GLOBAL_BOGGER_STRUCT.init_global (fm : BogFmterImpl) : GLOBAL_BOGGER_STRUCT :=
  { formatter := fm
    min_level := (0, BogLevel.DEBUG)
    downcast_to := (255, BogLevel.ERROR)
    preStr := ""
    sufStr := ""
    tag_override := none }

/-- Rust `static GLOBAL_BOGGER: Mutex<Option<GLOBAL_BOGGER_STRUCT>>`: either the
lock is poisoned, or it holds `None` (not initialized) or the state. -/
inductive GlobalBogger where
  | poisoned
  | state (s : Option GLOBAL_BOGGER_STRUCT)
deriving DecidableEq

/-- Rust `init_bogger` (`bog.rs`): install a fresh `Fg` or `Bg` logger. -/
def init_bogger (fg : Bool) : GlobalBogger :=
  GlobalBogger.state (some (GLOBAL_BOGGER_STRUCT.init_global (if fg then .Fg else .Bg)))

/-- Rust `Bogger::bog`: locks the global logger; a poisoned lock or an
uninitialized logger is a silent no-op (nothing written). -/
def Bogger.bog (g : GlobalBogger) (level : BogLevel) (tag msg : String) :
    GlobalBogger × Option String :=
  match g with
  | .state (some b) => (.state (some b), b.bog level tag msg)
  | _ => (g, none)

/-- Rust `Bogger::filter_below`. -/
def Bogger.filter_below (lvl : BogLevel) (g : GlobalBogger) : GlobalBogger :=
  match g with
  | .state (some b) => .state (some (b.filter_below lvl))
  | _ => g

/-- Rust `Bogger::downcast_above`. -/
def Bogger.downcast_above (lvl : BogLevel) (g : GlobalBogger) : GlobalBogger :=
  match g with
  | .state (some b) => .state (some (b.downcast_above lvl))
  | _ => g

/-- Rust `Bogger::pause`. -/
def Bogger.pause (g : GlobalBogger) : GlobalBogger :=
  match g with
  | .state (some b) => .state (some b.pause)
  | _ => g

/-- Rust `Bogger::resume`. -/
def Bogger.resume (g : GlobalBogger) : GlobalBogger :=
  match g with
  | .state (some b) => .state (some b.resume)
  | _ => g

/-- Rust `BogContext` (`bog.rs`): `bounds` is `[lower, upper]`, i.e. the first
component feeds `filter_below` and the second `downcast_above`.
`prefix`/`suffix` renamed `preStr`/`sufStr`. -/
structure BogContext where
  bounds : Option BogLevel × Option BogLevel
  pause : Bool
  preStr : Option String
  sufStr : Option String
  tag_override : Option String
deriving DecidableEq

/-- Rust `BogContext::new`. -/
def BogContext.new : BogContext := ⟨(none, none), false, none, none, none⟩

/-- The state `Bogger::with` snapshots before applying a context:
previous bounds, paused flag, prefix, suffix and tag override (the first
four are `None` exactly when the logger was unavailable). -/
structure BogPrev where
  bounds : Option ((Nat × BogLevel) × (Nat × BogLevel))
  paused : Option Bool
  preStr : Option String
  sufStr : Option String
  tag : Option String
deriving DecidableEq

/-- The "Apply new context" block of `Bogger::with`. -/
def applyBogContext (context : BogContext) (b : GLOBAL_BOGGER_STRUCT) :
    GLOBAL_BOGGER_STRUCT :=
  let b := match context.bounds.1 with
    | some level => b.filter_below level
    | none => b
  let b := match context.bounds.2 with
    | some level => b.downcast_above level
    | none => b
  let b := match context.preStr with
    | some p => { b with preStr := p }
    | none => b
  let b := match context.sufStr with
    | some s => { b with sufStr := s }
    | none => b
  let b := match context.tag_override with
    | some t => { b with tag_override := some t }
    | none => b
  if context.pause then b.pause else b

/-- The "Restore previous state" block of `Bogger::with`. -/
def restoreBog (context : BogContext) (prev : BogPrev) (b : GLOBAL_BOGGER_STRUCT) :
    GLOBAL_BOGGER_STRUCT :=
  let b := match prev.bounds with
    | some bd => b.set_bounds bd
    | none => b
  let b := match prev.paused with
    | some p => if p then b.pause else b.resume
    | none => b
  let b := match prev.preStr with
    | some p => { b with preStr := p }
    | none => b
  let b := match prev.sufStr with
    | some s => { b with sufStr := s }
    | none => b
  match prev.tag with
  | some t => { b with tag_override := some t }
  | none =>
    if context.tag_override.isSome then { b with tag_override := none } else b

/-- Rust `Bogger::with` (named `withContext` here, `with` being reserved):
snapshot and apply the context (when the lock is healthy and the logger
initialized), run the body, then restore from the snapshot.  The body is a
function on the global logger so that it can itself call logger operations
(including nested `with` scopes). -/
def Bogger.withContext {T : Type} (context : BogContext)
    (f : GlobalBogger → GlobalBogger × T) (g : GlobalBogger) : GlobalBogger × T :=
  let saved : GlobalBogger × BogPrev :=
    match g with
    | .state (some b) =>
      (.state (some (applyBogContext context b)),
        ⟨some b.bounds, some (b.min_level.1 == 255), some b.preStr, some b.sufStr,
          b.tag_override⟩)
    | _ => (g, ⟨none, none, none, none, none⟩)
  let res := f saved.1
  (match res.1 with
   | .state (some b) => .state (some (restoreBog context saved.2 b))
   | g2 => g2,
   res.2)

/-- Rust `init_filter` (`bog.rs`): map a numeric verbosity to `filter_below`. -/
def init_filter (verbosity : Nat) (g : GlobalBogger) : GlobalBogger :=
  match verbosity with
  | 0 => Bogger.filter_below BogLevel.ERROR g
  | 1 => Bogger.filter_below BogLevel.WARN g
  | 2 => Bogger.filter_below BogLevel.INFO g
  | 3 => Bogger.filter_below BogLevel.DEBUG g
  | 4 => Bogger.filter_below BogLevel.DNOTE g
  | _ => Bogger.filter_below BogLevel.ALL g

/-- The documented verbosity→threshold mapping of `init_filter`'s doc
comment, written from the spec for comparison: 0 = ERROR, 1 = WARN,
2 = INFO, 3 = DEBUG, 4 = DNOTE, above 4 = everything. -/
def documentedThreshold (v : Nat) : Nat × BogLevel :=
  if v = 0 then (100, BogLevel.ERROR)
  else if v = 1 then (80, BogLevel.WARN)
  else if v = 2 then (60, BogLevel.INFO)
  else if v = 3 then (40, BogLevel.DEBUG)
  else if v = 4 then (20, BogLevel.DNOTE)
  else (0, BogLevel.ALL)

/-- A logger state is consistent when the numeric minimum is either
`u8::MAX` (paused) or the priority of the stored minimum level — the shape
every `filter_below`/`pause` call produces (the freshly initialized state
`(0, DEBUG)` is NOT consistent). -/
def Consistent (b : GLOBAL_BOGGER_STRUCT) : Prop :=
  b.min_level.1 = 255 ∨ b.min_level.1 = b.min_level.2.priority

instance (b : GLOBAL_BOGGER_STRUCT) : Decidable (Consistent b) := by
  unfold Consistent; infer_instance

/-- Consistency lifted to the global logger cell. -/
def GConsistent : GlobalBogger → Prop
  | .state (some b) => Consistent b
  | _ => True

instance : (g : GlobalBogger) → Decidable (GConsistent g)
  | .poisoned => .isTrue trivial
  | .state none => .isTrue trivial
  | .state (some b) => inferInstanceAs (Decidable (Consistent b))

/-- Rust `BogOkExt::or_bog_tagged` on `Result<T, E: Display>` (`E` rendered to
its display string): downgrade to `Option`, logging the error through the
global sink.  Returns (line written, value). -/
def BogOkExt.or_bog_tagged {T : Type} (g : GlobalBogger) (r : Except String T)
    (level : BogLevel) (tag : String) : Option String × Option T :=
  match r with
  | .ok v => (none, some v)
  | .error e => ((Bogger.bog g level tag e).2, none)

/-- Rust `BogOkExt::or_err`. -/
def BogOkExt.or_err {T : Type} (g : GlobalBogger) (r : Except String T) :
    Option String × Option T :=
  BogOkExt.or_bog_tagged g r BogLevel.ERROR ""

/-- Result of an "unwrap" variant: either the value or process termination
with an exit code (`std::process::exit`). -/
inductive ExitOr (T : Type) where
  | exit (code : Nat)
  | val (v : T)
deriving DecidableEq

/-- Rust `BogUnwrapExt::or_bog_tagged` on `Option<T>`: unwrap, or log and exit 1.
Returns (line written, outcome). -/
def BogUnwrapExt.or_bog_tagged {T : Type} (g : GlobalBogger) (o : Option T)
    (level : BogLevel) (tag msg : String) : Option String × ExitOr T :=
  match o with
  | some v => (none, ExitOr.val v)
  | none => ((Bogger.bog g level tag msg).2, ExitOr.exit 1)

/-- Rust `BogUnwrapExt::or_exit`. -/
def BogUnwrapExt.or_exit {T : Type} (o : Option T) : ExitOr T :=
  match o with
  | some v => ExitOr.val v
  | none => ExitOr.exit 1

-- ===================== bo.rs : chunked stream reading =====================

/-- Rust `MapReaderError` (`bo.rs`). -/
inductive MapReaderError (E : Type) where
  | ChunkError (i : Nat)
  | Custom (e : E)
deriving DecidableEq

/-- Rust `String::from_utf8` on a byte list (bytes are `Nat < 256`): decode
UTF-8, rejecting truncated sequences, stray continuation bytes, overlong
encodings, surrogates and code points above `0x10FFFF` (RFC 3629, exactly
the validation Rust performs). -/
def utf8Decode? : List Nat → Option (List Char)
  | [] => some []
  | b0 :: rest =>
    if b0 < 0x80 then
      match utf8Decode? rest with
      | some cs => some (Char.ofNat b0 :: cs)
      | none => none
    else if b0 < 0xC2 then none
    else if b0 < 0xE0 then
      match rest with
      | b1 :: rest1 =>
        if 0x80 ≤ b1 ∧ b1 < 0xC0 then
          match utf8Decode? rest1 with
          | some cs => some (Char.ofNat ((b0 - 0xC0) * 0x40 + (b1 - 0x80)) :: cs)
          | none => none
        else none
      | [] => none
    else if b0 < 0xF0 then
      match rest with
      | b1 :: b2 :: rest2 =>
        if (if b0 = 0xE0 then 0xA0 ≤ b1 ∧ b1 < 0xC0
            else if b0 = 0xED then 0x80 ≤ b1 ∧ b1 < 0xA0
            else 0x80 ≤ b1 ∧ b1 < 0xC0) ∧ 0x80 ≤ b2 ∧ b2 < 0xC0 then
          match utf8Decode? rest2 with
          | some cs =>
            some (Char.ofNat ((b0 - 0xE0) * 0x1000 + (b1 - 0x80) * 0x40 + (b2 - 0x80)) :: cs)
          | none => none
        else none
      | _ => none
    else if b0 < 0xF5 then
      match rest with
      | b1 :: b2 :: b3 :: rest3 =>
        if (if b0 = 0xF0 then 0x90 ≤ b1 ∧ b1 < 0xC0
            else if b0 = 0xF4 then 0x80 ≤ b1 ∧ b1 < 0x90
            else 0x80 ≤ b1 ∧ b1 < 0xC0) ∧ 0x80 ≤ b2 ∧ b2 < 0xC0 ∧ 0x80 ≤ b3 ∧ b3 < 0xC0 then
          match utf8Decode? rest3 with
          | some cs =>
            some (Char.ofNat ((b0 - 0xF0) * 0x40000 + (b1 - 0x80) * 0x1000 +
              (b2 - 0x80) * 0x40 + (b3 - 0x80)) :: cs)
          | none => none
        else none
      | _ => none
    else none

/-- The loop of `map_chunks` (`bo.rs`), carrying the running chunk index.
The iterator items are `io::Result<Vec<u8>>` (the `io::Error` rendered as a
string).  The first component of the result is the Rust return value; the
second instruments the run with the list of strings the callback `f` was
invoked on, in order, so that "the callback is not invoked" is expressible
in the pure embedding. -/
def map_chunksAux {E : Type} (INVALID_FAIL : Bool) (f : String → Except E Unit) :
    Nat → List (Except String (List Nat)) →
    Except (MapReaderError E) Unit × List String
  | _, [] => (Except.ok (), [])
  | i, item :: rest =>
    if i = 4294967295 then (Except.error (MapReaderError.ChunkError i), [])
    else
      match item with
      | .error _ => (Except.error (MapReaderError.ChunkError i), [])
      | .ok bytes =>
        match utf8Decode? bytes with
        | some cs =>
          match f (String.mk cs) with
          | .ok _ =>
            let r := map_chunksAux INVALID_FAIL f (i + 1) rest
            (r.1, String.mk cs :: r.2)
          | .error e => (Except.error (MapReaderError.Custom e), [String.mk cs])
        | none =>
          if INVALID_FAIL then (Except.error (MapReaderError.ChunkError i), [])
          else map_chunksAux INVALID_FAIL f (i + 1) rest

/-- Rust `map_chunks` (`bo.rs`): the return value of the loop started at index 0. -/
def map_chunks {E : Type} (INVALID_FAIL : Bool)
    (iter : List (Except String (List Nat))) (f : String → Except E Unit) :
    Except (MapReaderError E) Unit :=
  (map_chunksAux INVALID_FAIL f 0 iter).1

-- ===================== broc.rs : shell quoting =====================

/-- The `s.replace('\'', "'\\''")` step of `format_sh_command`: every single
quote becomes quote, backslash, quote, quote. -/
def escapeQuote (s : List Char) : List Char :=
  s.flatMap fun c => if c = '\'' then ['\'', '\\', '\'', '\''] else [c]

/-- One argument as quoted by `format_sh_command`: wrapped in single quotes
around the escaped body. -/
def quoteArg (s : List Char) : List Char :=
  '\'' :: (escapeQuote s ++ ['\''])

/-- Rust `format_sh_command` (`broc.rs`) restricted to valid-UTF-8 arguments:
quote each argument and join with single spaces. -/
def format_sh_command : List (List Char) → List Char
  | [] => []
  | [a] => quoteArg a
  | a :: b :: rest => quoteArg a ++ ' ' :: format_sh_command (b :: rest)

/-- Parser mode: outside quotes, or inside a single-quoted span. -/
inductive ShMode where
  | unq
  | sq
deriving DecidableEq

/-- Modelled from the spec: POSIX shell word recovery for the quoting
fragment `format_sh_command` emits — blanks split words when unquoted, an
unquoted backslash escapes the next character, and a single-quoted span is
taken literally up to the closing quote.  `none` on an unterminated quote
or trailing backslash.  The `Bool` tracks whether the current word has
started (so `''` yields an empty word). -/
def shWordsAux : List Char → ShMode → Bool → List Char → List (List Char) →
    Option (List (List Char))
  | [], .sq, _, _, _ => none
  | [], .unq, inWord, cur, acc => some (acc ++ if inWord then [cur] else [])
  | c :: rest, .sq, _, cur, acc =>
    if c = '\'' then shWordsAux rest .unq true cur acc
    else shWordsAux rest .sq true (cur ++ [c]) acc
  | c :: rest, .unq, inWord, cur, acc =>
    if c = '\'' then shWordsAux rest .sq true cur acc
    else if c = '\\' then
      match rest with
      | [] => none
      | d :: rest2 => shWordsAux rest2 .unq true (cur ++ [d]) acc
    else if c = ' ' ∨ c = '\t' ∨ c = '\n' then
      shWordsAux rest .unq false [] (acc ++ if inWord then [cur] else [])
    else shWordsAux rest .unq true (cur ++ [c]) acc

/-- Modelled from the spec: split a command line into words under POSIX
single-quote rules. -/
def shSplitWords (s : List Char) : Option (List (List Char)) :=
  shWordsAux s .unq false [] []

-- ===================== theorems : bath.rs =====================

lemma normalizeAux_map_normal (l : List String) : ∀ ret : RPath,
    normalizeAux ret (l.map PathComponent.normal) = ⟨ret.pfx, ret.hasRoot, ret.comps ++ l⟩ := by
  induction l with
  | nil => intro ret; simp [normalizeAux]
  | cons s l ih =>
    intro ret
    simp only [List.map_cons, normalizeAux, RPath.pushNormal]
    rw [ih]
    simp

lemma normalize_cons_pfx (s : String) (rest : List PathComponent) :
    PathExt.normalize (PathComponent.pfx s :: rest) = normalizeAux ⟨some s, false, []⟩ rest := rfl

lemma normalize_nil : PathExt.normalize [] = ⟨none, false, []⟩ := rfl

lemma normalize_cons_rootDir (rest : List PathComponent) :
    PathExt.normalize (PathComponent.rootDir :: rest) = normalizeAux ⟨none, true, []⟩ rest := rfl

lemma normalize_cons_curDir (rest : List PathComponent) :
    PathExt.normalize (PathComponent.curDir :: rest) = normalizeAux ⟨none, false, []⟩ rest := rfl

lemma normalize_cons_parentDir (rest : List PathComponent) :
    PathExt.normalize (PathComponent.parentDir :: rest) = normalizeAux ⟨none, false, []⟩ rest := rfl

lemma normalize_cons_normal (s : String) (rest : List PathComponent) :
    PathExt.normalize (PathComponent.normal s :: rest) =
      normalizeAux ⟨none, false, [s]⟩ rest := rfl

lemma mem_normalizeAux_comps : ∀ (cs : List PathComponent) (ret : RPath) (s : String),
    s ∈ (normalizeAux ret cs).comps → s ∈ ret.comps ∨ PathComponent.normal s ∈ cs := by
  intro cs
  induction cs with
  | nil => intro ret s h; exact Or.inl h
  | cons c rest ih =>
    intro ret s h
    cases c with
    | pfx t =>
      rcases ih _ _ h with h' | h'
      · exact Or.inl h'
      · exact Or.inr (List.mem_cons_of_mem _ h')
    | rootDir =>
      rcases ih _ _ h with h' | h'
      · exact absurd h' (List.not_mem_nil s)
      · exact Or.inr (List.mem_cons_of_mem _ h')
    | curDir =>
      rcases ih _ _ h with h' | h'
      · exact Or.inl h'
      · exact Or.inr (List.mem_cons_of_mem _ h')
    | parentDir =>
      rcases ih _ _ h with h' | h'
      · exact Or.inl ((List.dropLast_prefix ret.comps).subset h')
      · exact Or.inr (List.mem_cons_of_mem _ h')
    | normal t =>
      rcases ih _ _ h with h' | h'
      · rcases List.mem_append.1 h' with h'' | h''
        · exact Or.inl h''
        · simp at h''
          subst h''
          exact Or.inr (List.mem_cons_self _ _)
      · exact Or.inr (List.mem_cons_of_mem _ h')

lemma mem_normalize_comps : ∀ (cs : List PathComponent) (s : String),
    s ∈ (PathExt.normalize cs).comps → PathComponent.normal s ∈ cs := by
  intro cs s h
  cases cs with
  | nil => rw [normalize_nil] at h; exact absurd h (List.not_mem_nil s)
  | cons c rest =>
    cases c with
    | pfx t =>
      rw [normalize_cons_pfx] at h
      rcases mem_normalizeAux_comps _ _ _ h with h' | h'
      · exact absurd h' (List.not_mem_nil s)
      · exact List.mem_cons_of_mem _ h'
    | rootDir =>
      rw [normalize_cons_rootDir] at h
      rcases mem_normalizeAux_comps _ _ _ h with h' | h'
      · exact absurd h' (List.not_mem_nil s)
      · exact List.mem_cons_of_mem _ h'
    | curDir =>
      rw [normalize_cons_curDir] at h
      rcases mem_normalizeAux_comps _ _ _ h with h' | h'
      · exact absurd h' (List.not_mem_nil s)
      · exact List.mem_cons_of_mem _ h'
    | parentDir =>
      rw [normalize_cons_parentDir] at h
      rcases mem_normalizeAux_comps _ _ _ h with h' | h'
      · exact absurd h' (List.not_mem_nil s)
      · exact List.mem_cons_of_mem _ h'
    | normal t =>
      rw [normalize_cons_normal] at h
      rcases mem_normalizeAux_comps _ _ _ h with h' | h'
      · simp at h'
        subst h'
        exact List.mem_cons_self _ _
      · exact List.mem_cons_of_mem _ h'

lemma components_shape (p : RPath) (c : PathComponent) (hc : c ∈ p.components) :
    (∃ s, c = PathComponent.pfx s) ∨ c = PathComponent.rootDir ∨
      ∃ s, c = PathComponent.normal s ∧ s ∈ p.comps := by
  unfold RPath.components at hc
  rcases List.mem_append.1 hc with h | h
  · rcases List.mem_append.1 h with h' | h'
    · cases hp : p.pfx with
      | some s =>
        rw [hp] at h'
        simp at h'
        exact Or.inl ⟨s, h'⟩
      | none =>
        rw [hp] at h'
        simp at h'
    · by_cases hr : p.hasRoot
      · rw [if_pos hr] at h'
        simp at h'
        exact Or.inr (Or.inl h')
      · rw [if_neg hr] at h'
        simp at h'
  · rcases List.mem_map.1 h with ⟨s, hs, rfl⟩
    exact Or.inr (Or.inr ⟨s, rfl, hs⟩)

lemma normalize_components (p : RPath) : PathExt.normalize p.components = p := by
  obtain ⟨pf, r, l⟩ := p
  cases pf with
  | none =>
    cases r with
    | false =>
      cases l with
      | nil =>
        have : RPath.components ⟨none, false, []⟩ = [] := by simp [RPath.components]
        rw [this, normalize_nil]
      | cons a l =>
        have : RPath.components ⟨none, false, a :: l⟩ =
            PathComponent.normal a :: l.map PathComponent.normal := by
          simp [RPath.components]
        rw [this, normalize_cons_normal, normalizeAux_map_normal]
        rfl
    | true =>
      have : RPath.components ⟨none, true, l⟩ =
          PathComponent.rootDir :: l.map PathComponent.normal := by
        simp [RPath.components]
      rw [this, normalize_cons_rootDir, normalizeAux_map_normal]
      rfl
  | some s =>
    cases r with
    | false =>
      have : RPath.components ⟨some s, false, l⟩ =
          PathComponent.pfx s :: l.map PathComponent.normal := by
        simp [RPath.components]
      rw [this, normalize_cons_pfx, normalizeAux_map_normal]
      rfl
    | true =>
      have : RPath.components ⟨some s, true, l⟩ =
          PathComponent.pfx s :: PathComponent.rootDir :: l.map PathComponent.normal := by
        simp [RPath.components]
      rw [this, normalize_cons_pfx]
      show normalizeAux (RPath.pushRoot ⟨some s, false, []⟩) (l.map PathComponent.normal) = _
      rw [normalizeAux_map_normal]
      rfl

/-- Claim C4: path normalization is idempotent — re-normalizing the
components of a normalized path gives the same path — and, equivalently,
the output of `normalize` contains no `CurDir` or `ParentDir` components
(its components are the prefix, the root, and valid normal names drawn
from the input). -/
theorem C4_normalize_idempotent (cs : List PathComponent)
    (hWF : ∀ s, PathComponent.normal s ∈ cs → validName s) :
    PathExt.normalize ((PathExt.normalize cs).components) = PathExt.normalize cs ∧
    (∀ c ∈ (PathExt.normalize cs).components,
      c ≠ PathComponent.curDir ∧ c ≠ PathComponent.parentDir) ∧
    (∀ s, PathComponent.normal s ∈ (PathExt.normalize cs).components → validName s) := by
  refine ⟨normalize_components _, ?_, ?_⟩
  · intro c hc
    rcases components_shape _ _ hc with ⟨s, rfl⟩ | rfl | ⟨s, rfl, _⟩ <;>
      exact ⟨by simp, by simp⟩
  · intro s hs
    rcases components_shape _ _ hs with ⟨t, ht⟩ | ht | ⟨t, ht, hmem⟩
    · simp at ht
    · simp at ht
    · simp at ht
      subst ht
      exact hWF s (mem_normalize_comps _ _ hmem)

/-- Witness for C4 at a concrete path `/a/./../b`. -/
theorem C4_witness :
    (∀ s, PathComponent.normal s ∈
        [PathComponent.rootDir, PathComponent.normal "a", PathComponent.curDir,
          PathComponent.parentDir, PathComponent.normal "b"] → validName s) ∧
    PathExt.normalize ((PathExt.normalize
        [PathComponent.rootDir, PathComponent.normal "a", PathComponent.curDir,
          PathComponent.parentDir, PathComponent.normal "b"]).components) =
      PathExt.normalize
        [PathComponent.rootDir, PathComponent.normal "a", PathComponent.curDir,
          PathComponent.parentDir, PathComponent.normal "b"] := by
  have hWF : ∀ s, PathComponent.normal s ∈
      [PathComponent.rootDir, PathComponent.normal "a", PathComponent.curDir,
        PathComponent.parentDir, PathComponent.normal "b"] → validName s := by
    intro s hs
    simp at hs
    rcases hs with rfl | rfl <;> decide
  exact ⟨hWF, (C4_normalize_idempotent _ hWF).1⟩

lemma specStep_parentDir (acc : RPath) :
    specNormalizeStep acc PathComponent.parentDir = acc.pop := by
  obtain ⟨pf, r, l⟩ := acc
  cases l <;> simp [specNormalizeStep, RPath.pop]

lemma foldl_specStep_body : ∀ (cs : List PathComponent), cs.all bodyComp = true →
    ∀ acc : RPath, List.foldl specNormalizeStep acc cs = normalizeAux acc cs := by
  intro cs
  induction cs with
  | nil => intro _ acc; rfl
  | cons c rest ih =>
    intro hall acc
    rw [List.all_cons, Bool.and_eq_true] at hall
    cases c with
    | pfx s => simp [bodyComp] at hall
    | rootDir => simp [bodyComp] at hall
    | curDir =>
      rw [List.foldl_cons]
      show List.foldl specNormalizeStep acc rest = _
      rw [ih hall.2]
      rfl
    | parentDir =>
      rw [List.foldl_cons, specStep_parentDir, ih hall.2]
      rfl
    | normal s =>
      rw [List.foldl_cons]
      show List.foldl specNormalizeStep (acc.pushNormal s) rest = _
      rw [ih hall.2]
      rfl

/-- Claim C5: `normalize` resolves `.` and `..` purely lexically, exactly as
the spec describes it — keep a prefix and a root, drop `.`, let `..` remove
the most recently kept component (no-op at an empty result or at the root),
and append normal components in order (`specNormalize`, written from the
spec's words) — for every component list of the shape the path parser
produces. -/
theorem C5_normalize_lexical (cs : List PathComponent) (h : parsedShape cs = true) :
    specNormalize cs = PathExt.normalize cs := by
  cases cs with
  | nil => rfl
  | cons c rest =>
    cases c with
    | pfx s =>
      cases rest with
      | nil => rfl
      | cons c2 rest2 =>
        cases c2 with
        | pfx t => simp [parsedShape, bodyComp] at h
        | rootDir =>
          have hall : rest2.all bodyComp = true := by simpa [parsedShape] using h
          rw [normalize_cons_pfx]
          show List.foldl specNormalizeStep ⟨some s, true, []⟩ rest2 = _
          rw [foldl_specStep_body rest2 hall]
          rfl
        | curDir =>
          have hall : (PathComponent.curDir :: rest2).all bodyComp = true := by
            simpa [parsedShape] using h
          rw [normalize_cons_pfx]
          show List.foldl specNormalizeStep ⟨some s, false, []⟩ (PathComponent.curDir :: rest2) = _
          rw [foldl_specStep_body _ hall]
        | parentDir =>
          have hall : (PathComponent.parentDir :: rest2).all bodyComp = true := by
            simpa [parsedShape] using h
          rw [normalize_cons_pfx]
          show List.foldl specNormalizeStep ⟨some s, false, []⟩
            (PathComponent.parentDir :: rest2) = _
          rw [foldl_specStep_body _ hall]
        | normal t =>
          have hall : (PathComponent.normal t :: rest2).all bodyComp = true := by
            simpa [parsedShape] using h
          rw [normalize_cons_pfx]
          show List.foldl specNormalizeStep ⟨some s, false, []⟩
            (PathComponent.normal t :: rest2) = _
          rw [foldl_specStep_body _ hall]
    | rootDir =>
      have hall : rest.all bodyComp = true := by simpa [parsedShape] using h
      rw [normalize_cons_rootDir]
      show List.foldl specNormalizeStep ⟨none, true, []⟩ rest = _
      rw [foldl_specStep_body rest hall]
    | curDir =>
      have hall : (PathComponent.curDir :: rest).all bodyComp = true := by
        simpa [parsedShape] using h
      unfold specNormalize
      rw [foldl_specStep_body _ hall]
      rfl
    | parentDir =>
      have hall : (PathComponent.parentDir :: rest).all bodyComp = true := by
        simpa [parsedShape] using h
      unfold specNormalize
      rw [foldl_specStep_body _ hall]
      rfl
    | normal t =>
      have hall : (PathComponent.normal t :: rest).all bodyComp = true := by
        simpa [parsedShape] using h
      unfold specNormalize
      rw [foldl_specStep_body _ hall]
      rfl

/-- Witness for C5 at the concrete path `/a/../b`. -/
theorem C5_witness :
    parsedShape [PathComponent.rootDir, PathComponent.normal "a", PathComponent.parentDir,
      PathComponent.normal "b"] = true ∧
    specNormalize [PathComponent.rootDir, PathComponent.normal "a", PathComponent.parentDir,
        PathComponent.normal "b"] =
      PathExt.normalize [PathComponent.rootDir, PathComponent.normal "a",
        PathComponent.parentDir, PathComponent.normal "b"] :=
  ⟨by decide, C5_normalize_lexical _ (by decide)⟩

lemma rfindChar_not_mem (ch : Char) : ∀ (l : List Char), rfindChar ch l = none → ch ∉ l := by
  intro l
  induction l with
  | nil => intro _; exact List.not_mem_nil ch
  | cons c rest ih =>
    intro h
    unfold rfindChar at h
    cases hr : rfindChar ch rest with
    | some i => rw [hr] at h; simp at h
    | none =>
      rw [hr] at h
      by_cases hc : c = ch
      · rw [if_pos hc] at h; simp at h
      · intro hmem
        rcases List.mem_cons.1 hmem with heq | hmem'
        · exact hc heq.symm
        · exact ih hr hmem'

lemma rfindChar_eq_none (ch : Char) : ∀ (l : List Char), ch ∉ l → rfindChar ch l = none := by
  intro l
  induction l with
  | nil => intro _; rfl
  | cons c rest ih =>
    intro h
    have h1 : ¬ c = ch := fun e => h (by rw [e]; exact List.mem_cons_self ch rest)
    have h2 : ch ∉ rest := fun m => h (List.mem_cons_of_mem _ m)
    unfold rfindChar
    rw [ih h2, if_neg h1]

lemma rfindChar_some (ch : Char) : ∀ (l : List Char) (i : Nat), rfindChar ch l = some i →
    ∃ pre suf, l = pre ++ ch :: suf ∧ pre.length = i ∧ ch ∉ suf := by
  intro l
  induction l with
  | nil => intro i h; simp [rfindChar] at h
  | cons c rest ih =>
    intro i h
    unfold rfindChar at h
    cases hr : rfindChar ch rest with
    | some j =>
      rw [hr] at h
      obtain ⟨pre, suf, hl, hlen, hmem⟩ := ih j hr
      injection h with h'
      subst h'
      exact ⟨c :: pre, suf, by rw [hl]; rfl, by simp [hlen], hmem⟩
    | none =>
      rw [hr] at h
      by_cases hc : c = ch
      · rw [if_pos hc] at h
        injection h with h'
        subst h'
        refine ⟨[], rest, ?_, rfl, rfindChar_not_mem ch rest hr⟩
        rw [hc]
        rfl
      · rw [if_neg hc] at h; simp at h

lemma split_ext_none (p : List Char) (h : rfindChar '.' p = none) :
    split_ext p = (p, []) := by
  unfold split_ext
  rw [h]

lemma split_ext_some (p : List Char) (idx : Nat) (h : rfindChar '.' p = some idx) :
    split_ext p =
      if idx = 0 then (p, [])
      else if idx + 1 < p.length then (p.take idx, p.drop (idx + 1))
      else (p.take idx, []) := by
  unfold split_ext
  rw [h]

/-- Claim C8: `split_ext p = [stem, ext]` satisfies: either `ext` is empty
and (`stem = p`, or `p = stem` followed by a terminal dot), or `ext` is
nonempty, dot-free, and `p = stem ++ "." ++ ext`; a string whose only dot
is its first character gets an empty extension. -/
theorem C8_split_ext (p : List Char) :
    (((split_ext p).2 = [] ∧ ((split_ext p).1 = p ∨ p = (split_ext p).1 ++ ['.'])) ∨
      ((split_ext p).2 ≠ [] ∧ '.' ∉ (split_ext p).2 ∧
        p = (split_ext p).1 ++ '.' :: (split_ext p).2)) ∧
    (∀ q, p = '.' :: q → '.' ∉ q → (split_ext p).2 = []) := by
  constructor
  · cases hr : rfindChar '.' p with
    | none =>
      rw [split_ext_none p hr]
      exact Or.inl ⟨rfl, Or.inl rfl⟩
    | some idx =>
      rw [split_ext_some p idx hr]
      obtain ⟨pre, suf, hl, hlen, hns⟩ := rfindChar_some '.' p idx hr
      by_cases h0 : idx = 0
      · rw [if_pos h0]
        exact Or.inl ⟨rfl, Or.inl rfl⟩
      · rw [if_neg h0]
        have htake : p.take idx = pre := by rw [hl]; exact List.take_left' hlen
        have hdrop : p.drop (idx + 1) = suf := by
          have hlen' : (pre ++ ['.']).length = idx + 1 := by simp [hlen]
          have : p = (pre ++ ['.']) ++ suf := by rw [hl]; simp
          rw [this]
          exact List.drop_left' hlen'
        have hplen : p.length = idx + 1 + suf.length := by
          rw [hl]; simp [hlen]; omega
        by_cases hlt : idx + 1 < p.length
        · rw [if_pos hlt]
          refine Or.inr ⟨?_, ?_, ?_⟩
          · rw [hdrop]
            intro hemp
            simp at hemp
            rw [hemp] at hplen
            simp at hplen
            omega
          · rw [hdrop]; exact hns
          · rw [htake, hdrop]; exact hl
        · rw [if_neg hlt]
          have hsuf : suf = [] := by
            have hle := Nat.not_lt.mp hlt
            have : suf.length = 0 := by omega
            exact List.length_eq_zero.mp this
          subst hsuf
          refine Or.inl ⟨rfl, Or.inr ?_⟩
          rw [htake, hl]
  · intro q hq hnq
    subst hq
    have h0 : rfindChar '.' ('.' :: q) = some 0 := by
      unfold rfindChar
      rw [rfindChar_eq_none '.' q hnq, if_pos rfl]
    rw [split_ext_some _ 0 h0]
    simp

/-- Witness for C8 at `".a"`: the only dot is the first character, so the
extension is empty. -/
theorem C8_witness : (split_ext ['.', 'a']).2 = [] :=
  (C8_split_ext ['.', 'a']).2 ['a'] rfl (by decide)

/-- Claim C9: when the normalized path has a final file-name component,
`is_hidden` is true exactly when that component does NOT start with a dot;
when there is no final component, `is_hidden` is false. -/
theorem C9_is_hidden (cs : List PathComponent) :
    (∀ s, (PathExt.normalize cs).file_name = some s →
      (PathExt.is_hidden cs = true ↔ ¬ s.startsWith "." = true)) ∧
    ((PathExt.normalize cs).file_name = none → PathExt.is_hidden cs = false) := by
  constructor
  · intro s hs
    unfold PathExt.is_hidden
    rw [hs]
    cases hb : s.startsWith "." <;> simp [hb]
  · intro h
    unfold PathExt.is_hidden
    rw [h]

/-- Witness for C9 at the path `".a"`. -/
theorem C9_witness :
    (PathExt.normalize [PathComponent.normal ".a"]).file_name = some ".a" ∧
    (PathExt.is_hidden [PathComponent.normal ".a"] = true ↔
      ¬ ".a".startsWith "." = true) :=
  ⟨rfl, (C9_is_hidden _).1 ".a" rfl⟩

-- ===================== theorems : bog.rs =====================

lemma bog_isSome (b : GLOBAL_BOGGER_STRUCT) (level : BogLevel) (tag msg : String) :
    (b.bog level tag msg).isSome = decide (b.min_level.1 ≤ level.priority) := by
  unfold GLOBAL_BOGGER_STRUCT.bog
  by_cases h : level.priority < b.min_level.1
  · rw [if_pos h]
    simp [Nat.not_le.mpr h]
  · rw [if_neg h]
    simp [Nat.not_lt.mp h]

/-- Claim C3: `init_filter` sets the global minimum severity exactly as
documented (`documentedThreshold`, written from the doc comment), and a
subsequent message is emitted through the sink if and only if its level's
priority is at least the resulting threshold. -/
theorem C3_init_filter (v : Nat) (b : GLOBAL_BOGGER_STRUCT) (level : BogLevel)
    (tag msg : String) :
    init_filter v (GlobalBogger.state (some b)) =
      GlobalBogger.state (some { b with min_level := documentedThreshold v }) ∧
    (({ b with min_level := documentedThreshold v } : GLOBAL_BOGGER_STRUCT).bog
        level tag msg).isSome =
      decide ((documentedThreshold v).1 ≤ level.priority) := by
  constructor
  · rcases v with _ | _ | _ | _ | _ | v <;>
      simp [init_filter, documentedThreshold, Bogger.filter_below,
        GLOBAL_BOGGER_STRUCT.filter_below, BogLevel.priority]
  · exact bog_isSome _ _ _ _

lemma priority_beq_255 (l : BogLevel) : (BogLevel.priority l == 255) = false := by
  cases l <;> rfl

lemma applyBogContext_formatter (c : BogContext) (b : GLOBAL_BOGGER_STRUCT) :
    (applyBogContext c b).formatter = b.formatter := by
  unfold applyBogContext
  cases c.bounds.1 <;> cases c.bounds.2 <;> cases c.preStr <;> cases c.sufStr <;>
    cases c.tag_override <;> cases c.pause <;>
    simp [GLOBAL_BOGGER_STRUCT.filter_below, GLOBAL_BOGGER_STRUCT.downcast_above,
      GLOBAL_BOGGER_STRUCT.pause]

lemma applyBogContext_tag_none (c : BogContext) (b : GLOBAL_BOGGER_STRUCT)
    (hc : c.tag_override = none) :
    (applyBogContext c b).tag_override = b.tag_override := by
  unfold applyBogContext
  rw [hc]
  cases c.bounds.1 <;> cases c.bounds.2 <;> cases c.preStr <;> cases c.sufStr <;>
    cases c.pause <;>
    simp [GLOBAL_BOGGER_STRUCT.filter_below, GLOBAL_BOGGER_STRUCT.downcast_above,
      GLOBAL_BOGGER_STRUCT.pause]

lemma restoreBog_some (c : BogContext) (bd : (Nat × BogLevel) × (Nat × BogLevel))
    (p : Bool) (pre suf : String) (tg : Option String) (b2 : GLOBAL_BOGGER_STRUCT) :
    restoreBog c ⟨some bd, some p, some pre, some suf, tg⟩ b2 =
      ⟨b2.formatter,
        (if p then (255, bd.1.2) else (bd.1.2.priority, bd.1.2)), bd.2, pre, suf,
        match tg with
        | some t => some t
        | none => if c.tag_override.isSome then none else b2.tag_override⟩ := by
  cases p <;> cases tg <;> by_cases h : c.tag_override.isSome <;>
    simp [restoreBog, GLOBAL_BOGGER_STRUCT.set_bounds, GLOBAL_BOGGER_STRUCT.pause,
      GLOBAL_BOGGER_STRUCT.resume, h]

lemma consistent_applyBogContext (c : BogContext) (b : GLOBAL_BOGGER_STRUCT)
    (hb : Consistent b) : Consistent (applyBogContext c b) := by
  unfold applyBogContext
  cases c.bounds.1 <;> cases c.bounds.2 <;> cases c.preStr <;> cases c.sufStr <;>
    cases c.tag_override <;> cases c.pause <;>
    simp [GLOBAL_BOGGER_STRUCT.filter_below, GLOBAL_BOGGER_STRUCT.downcast_above,
      GLOBAL_BOGGER_STRUCT.pause, Consistent] <;>
    first
      | exact Or.inl rfl
      | exact Or.inr rfl
      | exact hb

lemma restore_applyBogContext (c : BogContext) (b : GLOBAL_BOGGER_STRUCT)
    (hb : Consistent b) :
    restoreBog c ⟨some b.bounds, some (b.min_level.1 == 255), some b.preStr,
        some b.sufStr, b.tag_override⟩ (applyBogContext c b) = b := by
  rw [restoreBog_some, applyBogContext_formatter]
  show (⟨b.formatter,
      (if (b.min_level.1 == 255) then ((255 : Nat), b.min_level.2)
        else (b.min_level.2.priority, b.min_level.2)),
      b.downcast_to, b.preStr, b.sufStr,
      match b.tag_override with
      | some t => some t
      | none => if c.tag_override.isSome then none
          else (applyBogContext c b).tag_override⟩ : GLOBAL_BOGGER_STRUCT) = b
  have hmin : (if (b.min_level.1 == 255) then ((255 : Nat), b.min_level.2)
      else (b.min_level.2.priority, b.min_level.2)) = b.min_level := by
    rcases hb with h | h
    · rw [h]
      simp only [beq_self_eq_true, if_true]
      rw [← h]
    · rw [h, priority_beq_255]
      simp only [Bool.false_eq_true, if_false]
      rw [← h]
  have htag : (match b.tag_override with
      | some t => some t
      | none => if c.tag_override.isSome then none
          else (applyBogContext c b).tag_override) = b.tag_override := by
    cases htg : b.tag_override with
    | some t => rfl
    | none =>
      cases hct : c.tag_override with
      | some t2 => simp [hct]
      | none => simp [hct, applyBogContext_tag_none c b hct, htg]
  rw [hmin, htag]

/-- Counterexample to claim C1 as stated ("for every logger state"): from
the freshly initialized state (min level `(0, DEBUG)`, a state reachable by
`init_bogger` alone), a `Bogger::with` scope with an empty context and a
body that does not touch the logger does NOT restore the bounds: the
restore path calls `resume()`, which rewrites the numeric minimum from 0 to
`priority(DEBUG) = 40`. -/
theorem C1_counterexample :
    (Bogger.withContext BogContext.new (fun g => (g, ()))
        (GlobalBogger.state (some (GLOBAL_BOGGER_STRUCT.init_global .Fg)))).1 ≠
      GlobalBogger.state (some (GLOBAL_BOGGER_STRUCT.init_global .Fg)) := by
  decide

/-- Claim C1 (amended): for every logger state whose minimum bound is
consistent (numeric part 255, i.e. paused, or equal to the priority of its
level part — the shape every `filter_below`/`pause` call produces) and
every `BogContext`, after `Bogger::with(context, f)` returns the global
logger's prefix, suffix, tag override and both level bounds are identical
to their values immediately before the call, numeric priority and level
alike — for every body `f` that itself leaves any consistent logger state
unchanged, which covers pure bodies and nested balanced `with` scopes
(such an `f` is exactly what this theorem proves a nested `with` of a pure
body to be). -/
theorem C1_with_restores {T : Type} (context : BogContext)
    (f : GlobalBogger → GlobalBogger × T)
    (hf : ∀ g, GConsistent g → (f g).1 = g) (g : GlobalBogger)
    (hg : GConsistent g) :
    (Bogger.withContext context f g).1 = g := by
  cases g with
  | poisoned =>
    have h := hf GlobalBogger.poisoned trivial
    simp [Bogger.withContext, h]
  | state s =>
    cases s with
    | none =>
      have h := hf (GlobalBogger.state none) trivial
      simp [Bogger.withContext, h]
    | some b =>
      have happly : GConsistent (GlobalBogger.state (some (applyBogContext context b))) :=
        consistent_applyBogContext context b hg
      have hfeq := hf _ happly
      simp only [Bogger.withContext, hfeq]
      rw [restore_applyBogContext context b hg]

/-- Witness for C1 (amended) at a consistent state and a pure body. -/
theorem C1_witness :
    GConsistent (GlobalBogger.state (some ⟨.Fg, (40, .DEBUG), (255, .ERROR), "", "", none⟩)) ∧
    (Bogger.withContext BogContext.new (fun g => (g, (0 : Nat)))
        (GlobalBogger.state (some ⟨.Fg, (40, .DEBUG), (255, .ERROR), "", "", none⟩))).1 =
      GlobalBogger.state (some ⟨.Fg, (40, .DEBUG), (255, .ERROR), "", "", none⟩) :=
  ⟨Or.inr rfl,
    C1_with_restores BogContext.new (fun g => (g, (0 : Nat))) (fun _ _ => rfl) _ (Or.inr rfl)⟩

/-- Claim C10: when the global logger is uninitialized or its lock is
poisoned, `bog` writes nothing and changes nothing, `filter_below`,
`downcast_above`, `pause` and `resume` are identities, and
`Bogger::with(context, f)` still runs the body once on the unchanged
logger and returns its result. -/
theorem C10_uninit_noop {T : Type} (g : GlobalBogger)
    (hg : g = GlobalBogger.poisoned ∨ g = GlobalBogger.state none)
    (level lvl : BogLevel) (tag msg : String) (context : BogContext)
    (f : GlobalBogger → GlobalBogger × T) :
    Bogger.bog g level tag msg = (g, none) ∧
    Bogger.filter_below lvl g = g ∧
    Bogger.downcast_above lvl g = g ∧
    Bogger.pause g = g ∧
    Bogger.resume g = g ∧
    (Bogger.withContext context f g).2 = (f g).2 := by
  rcases hg with rfl | rfl <;>
    exact ⟨rfl, rfl, rfl, rfl, rfl, rfl⟩

/-- Witness for C10 at the uninitialized logger. -/
theorem C10_witness :
    Bogger.bog (GlobalBogger.state none) BogLevel.ERROR "tag" "msg" =
      (GlobalBogger.state none, none) :=
  (C10_uninit_noop (GlobalBogger.state none) (Or.inr rfl) BogLevel.ERROR BogLevel.WARN
    "tag" "msg" BogContext.new (fun g => (g, (0 : Nat)))).1

-- ===================== theorems : bo.rs =====================

/-- Claim C7: `map_chunks` honours `INVALID_FAIL`: with the flag false a
chunk that is not valid UTF-8 is skipped — the run continues at the next
chunk with the same result and the same callback-invocation trace, so the
callback is never invoked on it — and with the flag true the function
returns `MapReaderError::ChunkError` carrying that chunk's index. -/
theorem C7_map_chunks_utf8 {E : Type} (f : String → Except E Unit) (i : Nat)
    (bytes : List Nat) (rest : List (Except String (List Nat)))
    (hinv : utf8Decode? bytes = none) (hi : i < 4294967295) :
    map_chunksAux false f i (Except.ok bytes :: rest) =
      map_chunksAux false f (i + 1) rest ∧
    (map_chunksAux true f i (Except.ok bytes :: rest)).1 =
      Except.error (MapReaderError.ChunkError i) := by
  have hne : ¬ i = 4294967295 := Nat.ne_of_lt hi
  constructor
  · simp [map_chunksAux, hne, hinv]
  · simp [map_chunksAux, hne, hinv]

/-- Witness for C7 at the single invalid byte `0xFF`. -/
theorem C7_witness :
    utf8Decode? [255] = none ∧
    map_chunksAux false (fun _ => (Except.ok () : Except Unit Unit)) 0
        [Except.ok [255]] =
      map_chunksAux false (fun _ => (Except.ok () : Except Unit Unit)) 1 [] ∧
    (map_chunksAux true (fun _ => (Except.ok () : Except Unit Unit)) 0
        [Except.ok [255]]).1 =
      Except.error (MapReaderError.ChunkError 0) :=
  ⟨by decide,
    (C7_map_chunks_utf8 (fun _ => (Except.ok () : Except Unit Unit)) 0 [255] []
      (by decide) (by decide)).1,
    (C7_map_chunks_utf8 (fun _ => (Except.ok () : Except Unit Unit)) 0 [255] []
      (by decide) (by decide)).2⟩

/-- Counterexample to claim C2 as stated ("errors are never propagated to
the caller in typed form"): the public function `map_chunks` returns the
typed error value `MapReaderError::ChunkError(0)` to its caller when the
first chunk read fails (`spawn_piped` and `write_str` likewise return
`Result` values). -/
theorem C2_counterexample :
    map_chunks true [Except.error "io error"]
        (fun _ => (Except.ok () : Except Unit Unit)) =
      Except.error (MapReaderError.ChunkError 0) := rfl

/-- Claim C2 (amended): the error-handling helpers follow the documented
policy — `BogOkExt` downgrades `Err` to `None`, logging the error through
the global sink (a line is actually written under a freshly initialized
logger), and the `BogUnwrapExt` unwrap variants either produce the value or
log and terminate the process with exit code 1 — but the chunk/line reader
functions (`map_chunks`, shown here) and `spawn_piped`/`write_str` DO
return typed errors to the caller. -/
theorem C2_error_policy {T E : Type} (g : GlobalBogger) (v : T) (e : String)
    (level : BogLevel) (tag msg : String) (f : String → Except E Unit) :
    BogOkExt.or_bog_tagged g (Except.ok v) level tag = (none, some v) ∧
    BogOkExt.or_bog_tagged g (Except.error e : Except String T) level tag =
      ((Bogger.bog g level tag e).2, none) ∧
    ((BogOkExt.or_err (init_bogger true) (Except.error e : Except String T)).1).isSome =
      true ∧
    BogUnwrapExt.or_bog_tagged g (some v) level tag msg = (none, ExitOr.val v) ∧
    BogUnwrapExt.or_bog_tagged g (none : Option T) level tag msg =
      ((Bogger.bog g level tag msg).2, ExitOr.exit 1) ∧
    BogUnwrapExt.or_exit (none : Option T) = ExitOr.exit 1 ∧
    map_chunks true [Except.error "read failure"] f =
      Except.error (MapReaderError.ChunkError 0) :=
  ⟨rfl, rfl, rfl, rfl, rfl, rfl, rfl⟩

-- ===================== theorems : broc.rs =====================

lemma shSqQuote (rest : List Char) (iw : Bool) (cur : List Char)
    (acc : List (List Char)) :
    shWordsAux ('\'' :: rest) .sq iw cur acc = shWordsAux rest .unq true cur acc := rfl

lemma shSqOther (c : Char) (hc : c ≠ '\'') (rest : List Char) (iw : Bool)
    (cur : List Char) (acc : List (List Char)) :
    shWordsAux (c :: rest) .sq iw cur acc =
      shWordsAux rest .sq true (cur ++ [c]) acc := by
  show (if c = '\'' then shWordsAux rest .unq true cur acc
    else shWordsAux rest .sq true (cur ++ [c]) acc) = _
  rw [if_neg hc]

lemma shUnqQuote (rest : List Char) (iw : Bool) (cur : List Char)
    (acc : List (List Char)) :
    shWordsAux ('\'' :: rest) .unq iw cur acc = shWordsAux rest .sq true cur acc := by
  cases rest <;> rfl

lemma shUnqBackslash (d : Char) (rest : List Char) (iw : Bool) (cur : List Char)
    (acc : List (List Char)) :
    shWordsAux ('\\' :: d :: rest) .unq iw cur acc =
      shWordsAux rest .unq true (cur ++ [d]) acc := rfl

lemma shUnqSpace (rest : List Char) (iw : Bool) (cur : List Char)
    (acc : List (List Char)) :
    shWordsAux (' ' :: rest) .unq iw cur acc =
      shWordsAux rest .unq false [] (acc ++ if iw then [cur] else []) := by
  cases rest <;> rfl

lemma shWordsAux_escape (s : List Char) : ∀ (rest : List Char) (iw : Bool)
    (cur : List Char) (acc : List (List Char)),
    shWordsAux (escapeQuote s ++ ('\'' :: rest)) .sq iw cur acc =
      shWordsAux rest .unq true (cur ++ s) acc := by
  induction s with
  | nil =>
    intro rest iw cur acc
    rw [show escapeQuote [] = [] from rfl, List.nil_append, shSqQuote, List.append_nil]
  | cons c s ih =>
    intro rest iw cur acc
    by_cases hc : c = '\''
    · subst hc
      have he : escapeQuote ('\'' :: s) = '\'' :: '\\' :: '\'' :: '\'' :: escapeQuote s := by
        simp [escapeQuote]
      rw [he, List.cons_append, List.cons_append, List.cons_append, List.cons_append,
        shSqQuote, shUnqBackslash, shUnqQuote, ih]
      simp
    · have he : escapeQuote (c :: s) = c :: escapeQuote s := by
        simp [escapeQuote, hc]
      rw [he, List.cons_append, shSqOther c hc, ih]
      simp

lemma shWordsAux_quoteArg (s rest : List Char) (iw : Bool) (cur : List Char)
    (acc : List (List Char)) :
    shWordsAux (quoteArg s ++ rest) .unq iw cur acc =
      shWordsAux rest .unq true (cur ++ s) acc := by
  have h : quoteArg s ++ rest = '\'' :: (escapeQuote s ++ ('\'' :: rest)) := by
    simp [quoteArg]
  rw [h, shUnqQuote, shWordsAux_escape]

lemma shWordsAux_format : ∀ (args : List (List Char)) (a : List Char)
    (acc : List (List Char)),
    shWordsAux (format_sh_command (a :: args)) .unq false [] acc =
      some (acc ++ a :: args) := by
  intro args
  induction args with
  | nil =>
    intro a acc
    have h : format_sh_command [a] = quoteArg a ++ [] := by simp [format_sh_command]
    rw [h, shWordsAux_quoteArg]
    simp [shWordsAux]
  | cons b args ih =>
    intro a acc
    have h : format_sh_command (a :: b :: args) =
        quoteArg a ++ (' ' :: format_sh_command (b :: args)) := rfl
    rw [h, shWordsAux_quoteArg, shUnqSpace]
    simpa [List.append_assoc] using ih b (acc ++ [a])

/-- Claim C6: shell-argument quoting round-trips — parsing the output of
`format_sh_command` under POSIX single-quote rules (`shSplitWords`,
modelled from the spec) recovers the single argument, and the original
argument list, exactly; this includes arguments containing single quotes,
blanks or backslashes. -/
theorem C6_round_trip :
    (∀ s : List Char, shSplitWords (format_sh_command [s]) = some [s]) ∧
    (∀ args : List (List Char), shSplitWords (format_sh_command args) = some args) := by
  have hmain : ∀ args : List (List Char),
      shSplitWords (format_sh_command args) = some args := by
    intro args
    cases args with
    | nil => rfl
    | cons a rest =>
      have h := shWordsAux_format rest a []
      simpa [shSplitWords] using h
  exact ⟨fun s => hmain [s], hmain⟩
